import Mathlib

/-!
Verification of the Forest Query Cache and Transclusion Graph Engine of the
topos-vscode-forester extension.

The definitions below are a shallow embedding of the TypeScript source:

* `queryForest`, `getForestFromBuild` embed the fetch/fallback logic of
  `server.ts` (`queryForest`, `getForestFromBuild`).
* `Sys`/`Step` embed the cooperative (run-to-completion between `await`s)
  interleaving semantics of `getForest` and `forestUpdatedOnDisk` in
  `server.ts`: each constructor of `Step` is one atomic segment of the
  corresponding TypeScript function, cut at its `await` suspension points.
* `renderNode`, `findRoot`, `findPathFuel`, `togglePin`, `autoPin`,
  `nodeContainsChild` and friends embed the graph engine and view state of
  `forestStructureView.ts`.
* `getTaxonAbbreviation`, `nodeDisplayTitle` embed the title derivation of
  `forestStructureView.ts` (`buildGraph`) and `utils.ts`
  (`getTaxonAbbreviation`).

JavaScript `Map`s and `Set`s are embedded as insertion-ordered lists without
duplicates (iteration order of both is insertion order); string falsiness
(`!s`) is embedded as equality with the empty string; thrown exceptions are
embedded with `Except`/`Option`.
-/

/-! ## Data model (`server.ts`): trees, forests, adapter outcomes, status -/

/-- Embedding of the `ForesterTree` interface of `server.ts`; `metas` is a
key-value map embedded as an association list. -/
structure ForesterTree where
  title : Option String
  taxon : Option String
  tags : List String
  route : String
  metas : List (String × String)
  sourcePath : String
  uri : String
deriving DecidableEq, Repr

/-- `Forest` of `server.ts`: an ordered sequence of trees. -/
abbrev Forest := List ForesterTree

/-- A tree record without its `uri` field, as produced by the old query
format (`Omit<ForesterTree, 'uri'>` in `server.ts`). -/
structure TreeNoUri where
  title : Option String
  taxon : Option String
  tags : List String
  route : String
  metas : List (String × String)
  sourcePath : String
deriving DecidableEq, Repr

/-- `{ uri: id, ...entry }` of `server.ts` line 187. -/
def TreeNoUri.withUri (e : TreeNoUri) (id : String) : ForesterTree :=
  ⟨e.title, e.taxon, e.tags, e.route, e.metas, e.sourcePath, id⟩

/-- The two shapes of a successful `forester query all` JSON payload
(`server.ts` lines 184-188): the new array format or the old object format
keyed by tree id. -/
inductive AdapterPayload where
  | newFormat (forest : Forest)
  | oldFormat (entries : List (String × TreeNoUri))
deriving DecidableEq, Repr

/-- Outcome of one Data Source Adapter invocation (`server.ts` lines
155-178): success with a parsed payload, or failure (timeout, process
error, non-zero exit or signal, or malformed JSON output) carrying the
composed human-readable error message of line 190. -/
inductive AdapterOutcome where
  | success (payload : AdapterPayload)
  | failure (message : String)
deriving DecidableEq, Repr

/-- The `forestStatus` cell of `server.ts` (`{valid?, updating?, error?}`). -/
inductive ForestStatus where
  | valid
  | updating
  | invalid (error : String)
deriving DecidableEq, Repr

/-- One element of the parsed `output/forest.json` array: `uriIsString`
records whether the entry's `uri` field exists and is a JSON string (the
only shape check `getForestFromBuild` performs); `tree` is the record it
denotes when it does.  An empty-string `uri` is represented by
`uriIsString = true` and `tree.uri = ""`. -/
structure BuildEntry where
  uriIsString : Bool
  tree : ForesterTree
deriving DecidableEq, Repr

/-- The state of the `output/forest.json` build artifact as observed by
`getForestFromBuild` (`server.ts` lines 304-333): absent (or unreadable, or
invalid JSON — both caught by the surrounding `try`), parsed but not an
array, or an array of entries. -/
inductive BuildArtifactFile where
  | missing
  | notArray
  | arrayOf (entries : List BuildEntry)
deriving DecidableEq, Repr

/-- Embedding of `getForestFromBuild` (`server.ts` lines 304-333): returns
`none` when the file is absent/unreadable/not valid JSON, when the value is
not an array, or when some element's `uri` is not a string; otherwise the
array itself.  Note the only per-element validation is
`typeof tree.uri !== "string"`. -/
def getForestFromBuild : BuildArtifactFile → Option Forest
  | .missing => none
  | .notArray => none
  | .arrayOf es => if es.all (fun e => e.uriIsString) then some (es.map (fun e => e.tree)) else none

/-- Embedding of `queryForest` (`server.ts` lines 137-205) as a function of
the adapter outcome, the current `mostRecentQueryResult`, and the build
artifact.  Returns the forest it resolves with together with the final
status written by `updateStatusBar`.  On success the payload is normalized
(old object format gets its keys spliced in as `uri`); on failure the
fallback chain is: `mostRecentQueryResult`, then the build artifact, then
the empty forest.  It always resolves — no branch throws. -/
def queryForest (outcome : AdapterOutcome) (mostRecent : Option Forest)
    (build : BuildArtifactFile) : Forest × ForestStatus :=
  match outcome with
  | .success (.newFormat f) => (f, .valid)
  | .success (.oldFormat es) => (es.map (fun p => p.2.withUri p.1), .valid)
  | .failure msg =>
    match mostRecent with
    | some f => (f, .invalid msg)
    | none =>
      match getForestFromBuild build with
      | some f => (f, .invalid msg)
      | none => ([], .invalid msg)

/-- Spec-side artifact validation, following the specification's words for
the fallback step (b) as amended: the artifact is used when it is an array
whose every element bears a string identifier (possibly empty). -/
def specArtifactAmended : BuildArtifactFile → Option Forest
  | .arrayOf es =>
    if es.all (fun e => e.uriIsString) then some (es.map (fun e => e.tree)) else none
  | _ => none

/-- Spec-side artifact validation following the claim as written: the
artifact must be an array whose every element bears a NON-EMPTY string
identifier. -/
def specArtifactStrict : BuildArtifactFile → Option Forest
  | .arrayOf es =>
    if es.all (fun e => e.uriIsString && !(e.tree.uri == "")) then
      some (es.map (fun e => e.tree))
    else none
  | _ => none

/-- Spec-side three-step fallback, amended: first success of (a) the cached
`lastGood`, (b) the amended-validated artifact, (c) the empty forest. -/
def specFallbackAmended (mostRecent : Option Forest) (build : BuildArtifactFile) : Forest :=
  match mostRecent with
  | some f => f
  | none =>
    match specArtifactAmended build with
    | some f => f
    | none => []

/-- Spec-side three-step fallback exactly as the claim states it, with the
strict (non-empty identifier) artifact validation. -/
def specFallbackStrict (mostRecent : Option Forest) (build : BuildArtifactFile) : Forest :=
  match mostRecent with
  | some f => f
  | none =>
    match specArtifactStrict build with
    | some f => f
    | none => []

/-- A tree whose `uri` field is present, a string, but empty. -/
def emptyUriTree : ForesterTree := ⟨none, none, [], "", [], "", ""⟩

/-- A build artifact that is an array with a single element whose `uri` is
the empty string: `getForestFromBuild` accepts it. -/
def emptyUriArtifact : BuildArtifactFile := .arrayOf [⟨true, emptyUriTree⟩]

/-- Claim C3, counterexample: the claim as written requires the
build-artifact fallback to validate that every element bears a NON-EMPTY
string identifier, but `getForestFromBuild` only checks
`typeof tree.uri === "string"` and accepts the empty string, so on an
adapter failure with no cached result and an artifact containing an
empty-`uri` entry, `queryForest` resolves with that artifact while the
claim's fallback would skip it and resolve with the empty forest. -/
theorem queryForest_strict_validation_cex :
    (queryForest (.failure "Forester timed out after 30s") none emptyUriArtifact).1 ≠
      specFallbackStrict none emptyUriArtifact := by
  decide

/-- Claim C3 (amended: the artifact validation only requires every element
to bear a string identifier, possibly empty): `queryForest` never rejects —
for every outcome of a single fetch it resolves with a forest.  On failure
it resolves with the first success of (a) the cached result, (b) the
validated build artifact, (c) the empty forest, and sets the status to
`invalid` with the failure's reason string; on success (either payload
format) it sets the status to `valid`. -/
theorem queryForest_fallback :
    ∀ (msg : String) (mostRecent : Option Forest) (build : BuildArtifactFile)
      (payload : AdapterPayload),
      queryForest (.failure msg) mostRecent build =
        (specFallbackAmended mostRecent build, .invalid msg) ∧
      (queryForest (.success payload) mostRecent build).2 = .valid := by
  intro msg mostRecent build payload
  constructor
  · cases mostRecent with
    | some f => rfl
    | none =>
      show _ = (specFallbackAmended none build, _)
      cases build with
      | missing => rfl
      | notArray => rfl
      | arrayOf es =>
        simp only [queryForest, specFallbackAmended, specArtifactAmended, getForestFromBuild]
        by_cases h : es.all (fun e => e.uriIsString) = true
        · simp [h]
        · simp [h]
  · cases payload <;> rfl

/-! ## Taxon abbreviations and display titles (`utils.ts`, `forestStructureView.ts`) -/

/-- Association-list lookup with string keys (embeds JS object indexing
`obj[key]`, first binding wins). -/
def assocFind {α : Type} : List (String × α) → String → Option α
  | [], _ => none
  | (k, v) :: rest, key => if key = k then some v else assocFind rest key

/-- JS `toLowerCase`, character by character. -/
def lowerStr (s : String) : String := ⟨s.data.map Char.toLower⟩

/-- The `TAXON_MAP` constant of `utils.ts`: full taxon name to primary
abbreviation. -/
def TAXON_MAP : List (String × String) :=
  [("theorem", "thm"), ("definition", "def"), ("proposition", "prop"),
   ("lemma", "lem"), ("corollary", "cor"), ("example", "ex"),
   ("remark", "rem"), ("proof", "pf"), ("section", "sec"),
   ("chapter", "ch"), ("note", "note"), ("conjecture", "conj"),
   ("axiom", "ax"), ("construction", "const"), ("observation", "obs"),
   ("exercise", "exer"), ("problem", "prob"), ("solution", "soln"),
   ("algorithm", "alg"), ("discussion", "disc"), ("warning", "warn"),
   ("nota-bene", "nb"), ("appendix", "app"), ("explication", "expl"),
   ("figure", "fig")]

/-- The custom taxon configuration as returned by `getCustomTaxonConfig`
(`utils.ts`): keys already lowercased, each mapped to the record's optional
`abbreviation` field (`none` embeds a record without that field). -/
abbrev CustomTaxonCfg := List (String × Option String)

/-- The built-in part of `getTaxonAbbreviation` (`utils.ts` lines 259-265):
`TAXON_MAP[lowerTaxon]` if bound, else `taxon.substring(0, 3).toLowerCase()`. -/
def builtinAbbrev (taxon : String) (lowerTaxon : String) : String :=
  match assocFind TAXON_MAP lowerTaxon with
  | some ab => ab
  | none => lowerStr ⟨taxon.data.take 3⟩

/-- Embedding of `getTaxonAbbreviation` (`utils.ts` lines 248-266).  The
guard `if (!taxon) return ''` is true for both `null` and the empty string;
`customConfig[lowerTaxon]?.abbreviation` is used only when the field exists
and is truthy (a non-empty string). -/
def getTaxonAbbreviation (cfg : CustomTaxonCfg) : Option String → String
  | none => ""
  | some taxon =>
    if taxon = "" then ""
    else
      let lowerTaxon := lowerStr taxon
      match assocFind cfg lowerTaxon with
      | some (some a) => if a = "" then builtinAbbrev taxon lowerTaxon else a
      | _ => builtinAbbrev taxon lowerTaxon

/-- Whether `hay` starts with `needle`. -/
def listStartsWith : List Char → List Char → Bool
  | [], _ => true
  | _ :: _, [] => false
  | n :: ns, h :: hs => n == h && listStartsWith ns hs

/-- Whether `needle` occurs contiguously somewhere in `hay`. -/
def hasSubSeq (needle : List Char) : List Char → Bool
  | [] => needle.isEmpty
  | h :: rest => listStartsWith needle (h :: rest) || hasSubSeq needle rest

/-- The regex test `/(https?:\/\/)/.test(title)` of `buildGraph`
(`forestStructureView.ts` line 243): the title contains `http://` or
`https://` somewhere. -/
def hasUrlScheme (s : String) : Bool :=
  hasSubSeq "http://".data s.data || hasSubSeq "https://".data s.data

/-- The display-title computation of `buildGraph` (`forestStructureView.ts`
lines 238-247): `taxonPrefix + separator + title` where the separator is
`': '` exactly when the prefix is truthy, and the base title falls back to
the `uri` when `entry.title` is falsy (`null` or empty) or matches the URL
pattern. -/
def nodeDisplayTitle (cfg : CustomTaxonCfg) (entry : ForesterTree) : String :=
  let abb := getTaxonAbbreviation cfg entry.taxon
  let separator := if abb = "" then "" else ": "
  let base :=
    match entry.title with
    | none => entry.uri
    | some t => if t = "" || hasUrlScheme t then entry.uri else t
  abb ++ separator ++ base

/-- Spec-side display title, following the claim's words: the taxon
abbreviation plus a separator followed by the base title when a (non-empty)
taxon is present, and just the base title otherwise; the base title is the
`uri` whenever the title is absent or matches a URL pattern, the title
otherwise. -/
def specDisplayTitle (cfg : CustomTaxonCfg) (entry : ForesterTree) : String :=
  let base :=
    match entry.title with
    | none => entry.uri
    | some t => if t = "" || hasUrlScheme t then entry.uri else t
  match entry.taxon with
  | none => base
  | some t => if t = "" then base else getTaxonAbbreviation cfg (some t) ++ ": " ++ base

theorem assocFind_mem {α : Type} :
    ∀ (l : List (String × α)) (k : String) (v : α),
      assocFind l k = some v → ∃ p ∈ l, p.2 = v := by
  intro l
  induction l with
  | nil => intro k v h; simp [assocFind] at h
  | cons p rest ih =>
    intro k v h
    cases p with
    | mk k' v' =>
      by_cases hk : k = k'
      · simp only [assocFind, hk, if_true, Option.some.injEq] at h
        exact ⟨(k', v'), List.mem_cons_self .., h⟩
      · simp only [assocFind, hk, if_false] at h
        obtain ⟨q, hq, hv⟩ := ih k v h
        exact ⟨q, List.mem_cons_of_mem _ hq, hv⟩

theorem builtinAbbrev_ne_empty (taxon lowerTaxon : String) (h : taxon ≠ "") :
    builtinAbbrev taxon lowerTaxon ≠ "" := by
  unfold builtinAbbrev
  cases hfind : assocFind TAXON_MAP lowerTaxon with
  | some ab =>
    obtain ⟨p, hp, hv⟩ := assocFind_mem TAXON_MAP lowerTaxon ab hfind
    have hall : ∀ p ∈ TAXON_MAP, p.2 ≠ "" := by decide
    rw [← hv]
    exact hall p hp
  | none =>
    cases htd : taxon.data with
    | nil =>
      exact absurd (by cases taxon with | mk d => exact String.ext htd) h
    | cons c cs =>
      intro hcontra
      have h2 : ((c :: cs).take 3).map Char.toLower = ([] : List Char) :=
        String.ext_iff.mp hcontra
      simp at h2

/-- Claim C9: for every tree and custom-taxon configuration, the GraphNode
display title is the taxon abbreviation plus the `': '` separator followed
by the base title when a (non-empty) taxon is present, and just the base
title otherwise, where the base title is the tree's `uri` whenever the
title is absent or matches a URL pattern, and the tree's title otherwise. -/
theorem node_display_title :
    ∀ (cfg : CustomTaxonCfg) (entry : ForesterTree),
      nodeDisplayTitle cfg entry = specDisplayTitle cfg entry := by
  intro cfg entry
  unfold nodeDisplayTitle specDisplayTitle
  cases htx : entry.taxon with
  | none => simp [getTaxonAbbreviation]
  | some t =>
    by_cases ht : t = ""
    · subst ht; simp [getTaxonAbbreviation]
    · have habb : getTaxonAbbreviation cfg (some t) ≠ "" := by
        unfold getTaxonAbbreviation
        simp only [ht, if_false]
        cases hfind : assocFind cfg (lowerStr t) with
        | none => exact builtinAbbrev_ne_empty t (lowerStr t) ht
        | some o =>
          cases o with
          | none => exact builtinAbbrev_ne_empty t (lowerStr t) ht
          | some a =>
            by_cases ha : a = ""
            · simp only [ha, if_true]
              exact builtinAbbrev_ne_empty t (lowerStr t) ht
            · simp only [ha, if_false]
              exact ha
      simp [habb, ht]

/-! ## Graph nodes and `buildGraph`'s first pass (`forestStructureView.ts`) -/

/-- Embedding of the `TreeNode` interface of `forestStructureView.ts`: a
tree together with its derived display title and its `transcludes` /
`transcludedBy` sets (insertion-ordered, duplicate-free lists). -/
structure GraphNode where
  title : String
  taxon : Option String
  tags : List String
  route : String
  metas : List (String × String)
  sourcePath : String
  uri : String
  transcludes : List String
  transcludedBy : List String
deriving DecidableEq, Repr

/-- The `this.nodes` map of the view provider, embedded as an
insertion-ordered list keyed by `uri`. -/
abbrev Graph := List GraphNode

/-- `this.nodes.get(uri)`. -/
def lookupNode (g : Graph) (uri : String) : Option GraphNode :=
  g.find? (fun n => n.uri == uri)

/-- The node constructed for one forest entry in `buildGraph`
(`forestStructureView.ts` lines 245-250): the entry's fields spread in, the
display title computed, and empty transclusion sets. -/
def mkGraphNode (cfg : CustomTaxonCfg) (entry : ForesterTree) : GraphNode :=
  ⟨nodeDisplayTitle cfg entry, entry.taxon, entry.tags, entry.route, entry.metas,
   entry.sourcePath, entry.uri, [], []⟩

/-- Embedding of the first pass of `buildGraph` (`forestStructureView.ts`
lines 235-253): for each entry in order, `if (!entry.uri) throw new
Error('Unexpected lack of uri')`, else insert the constructed node.  The
thrown error is embedded as `Except.error`, which aborts the whole pass at
the first offending entry, leaving no partial graph. -/
def buildGraphNodes (cfg : CustomTaxonCfg) : Forest → Except String Graph
  | [] => .ok []
  | entry :: rest =>
    if entry.uri = "" then .error "Unexpected lack of uri"
    else
      match buildGraphNodes cfg rest with
      | .ok ns => .ok (mkGraphNode cfg entry :: ns)
      | .error e => .error e

/-- Claim C10: `buildGraph`'s first pass throws (aborting the whole rebuild)
exactly when some entry of the fetched forest has a missing or empty-string
`uri`, and completes without throwing whenever every entry carries a
non-empty `uri` — even though the build-artifact fallback
(`getForestFromBuild`) accepts empty-string `uri`s, as
`queryForest_strict_validation_cex` exhibits. -/
theorem buildGraph_uri_guard :
    ∀ (cfg : CustomTaxonCfg) (forest : Forest),
      (buildGraphNodes cfg forest).isOk = forest.all (fun e => !(e.uri == "")) := by
  intro cfg forest
  induction forest with
  | nil => rfl
  | cons entry rest ih =>
    by_cases h : entry.uri = ""
    · simp [buildGraphNodes, h, Except.isOk, Except.toBool]
    · simp only [buildGraphNodes, h, if_false, List.all_cons]
      cases hr : buildGraphNodes cfg rest with
      | ok ns => simp_all [Except.isOk, Except.toBool]
      | error e => simp_all [Except.isOk, Except.toBool]

/-! ## View state: expansion and pinning (`forestStructureView.ts`) -/

/-- `MAX_PINNED_ROOTS` of `forestStructureView.ts`. -/
def MAX_PINNED_ROOTS : Nat := 10

/-- The persisted `TreeViewState` of `forestStructureView.ts`:
`expandedNodes` is a `Set` (insertion-ordered, duplicate-free list),
`pinnedRootIds` an array. -/
structure ViewState where
  expandedNodes : List String
  pinnedRootIds : List String
  focusMode : Bool
  selectedNodeId : Option String
deriving DecidableEq, Repr

/-- `Set.add`: append unless already present. -/
def setAdd (l : List String) (x : String) : List String :=
  if l.contains x then l else l ++ [x]

/-- `Set.delete`: remove the element. -/
def setDelete (l : List String) (x : String) : List String :=
  l.filter (fun y => !(y == x))

/-- Embedding of the `togglePin` message handler (`forestStructureView.ts`
lines 107-125).  Returns the updated state together with whether the
capacity warning (`Cannot pin more than 10 roots`) was reported.  Already
pinned: filter the id out.  Not pinned at the limit: state unchanged,
warning shown.  Not pinned under the limit: append and expand. -/
def togglePin (st : ViewState) (nodeId : String) : ViewState × Bool :=
  if st.pinnedRootIds.contains nodeId then
    ({ st with pinnedRootIds := st.pinnedRootIds.filter (fun id => !(id == nodeId)) }, false)
  else if MAX_PINNED_ROOTS ≤ st.pinnedRootIds.length then
    (st, true)
  else
    ({ st with pinnedRootIds := st.pinnedRootIds ++ [nodeId],
               expandedNodes := setAdd st.expandedNodes nodeId }, false)

/-- Claim C6: for every state, `togglePin` on an already-pinned node removes
it (no capacity error); on an unpinned node with the maximum number (10) of
pinned roots it leaves `pinnedRootIds` unchanged and reports the capacity
error; and on an unpinned node below the limit it appends the node, expands
it, and reports no error — so pinning up to exactly the limit succeeds on
the last call. -/
theorem togglePin_semantics (st : ViewState) (nodeId : String) :
    (st.pinnedRootIds.contains nodeId = true →
      (togglePin st nodeId).1.pinnedRootIds.contains nodeId = false ∧
      (togglePin st nodeId).2 = false) ∧
    (st.pinnedRootIds.contains nodeId = false →
      MAX_PINNED_ROOTS ≤ st.pinnedRootIds.length →
      (togglePin st nodeId).1 = st ∧ (togglePin st nodeId).2 = true) ∧
    (st.pinnedRootIds.contains nodeId = false →
      st.pinnedRootIds.length < MAX_PINNED_ROOTS →
      (togglePin st nodeId).1.pinnedRootIds = st.pinnedRootIds ++ [nodeId] ∧
      (togglePin st nodeId).1.expandedNodes.contains nodeId = true ∧
      (togglePin st nodeId).2 = false) := by
  refine ⟨?_, ?_, ?_⟩
  · intro hmem
    have hm : nodeId ∈ st.pinnedRootIds := by simpa using hmem
    refine ⟨?_, ?_⟩ <;> simp [togglePin, hm]
  · intro hmem hlen
    have hm : ¬ nodeId ∈ st.pinnedRootIds := by simpa using hmem
    simp [togglePin, hm, hlen]
  · intro hmem hlen
    have hm : ¬ nodeId ∈ st.pinnedRootIds := by simpa using hmem
    have hlt : ¬ MAX_PINNED_ROOTS ≤ st.pinnedRootIds.length := Nat.not_le.mpr hlen
    refine ⟨?_, ?_, ?_⟩ <;> by_cases hc : nodeId ∈ st.expandedNodes <;>
      simp [togglePin, setAdd, hm, hlt, hc]

/-- Witness for `togglePin_semantics`: with nine pinned roots the tenth pin
succeeds and is appended; with ten pinned roots the next pin is rejected
with the capacity error. -/
theorem togglePin_semantics_witness :
    (togglePin ⟨[], ["r0", "r1", "r2", "r3", "r4", "r5", "r6", "r7", "r8"], false, none⟩
        "r9").1.pinnedRootIds =
      ["r0", "r1", "r2", "r3", "r4", "r5", "r6", "r7", "r8", "r9"] ∧
    (togglePin ⟨[], ["r0", "r1", "r2", "r3", "r4", "r5", "r6", "r7", "r8", "r9"], false, none⟩
        "r10").2 = true := by
  constructor
  · have h := (togglePin_semantics
      ⟨[], ["r0", "r1", "r2", "r3", "r4", "r5", "r6", "r7", "r8"], false, none⟩ "r9").2.2
      (by decide) (by decide)
    rw [h.1]
    decide
  · exact ((togglePin_semantics
      ⟨[], ["r0", "r1", "r2", "r3", "r4", "r5", "r6", "r7", "r8", "r9"], false, none⟩
      "r10").2.1 (by decide) (by decide)).2

/-! ## Termination measure for graph traversals

Every traversal of `forestStructureView.ts` grows a `visited` set with keys
of `this.nodes` before recursing; the number of node uris not yet visited
is the termination measure. -/

/-- Number of uris of `g` not yet in `visited`. -/
def urisNot (g : Graph) (visited : List String) : Nat :=
  ((g.map (fun n => n.uri)).filter (fun u => !(visited.contains u))).length

theorem length_filter_mono {α : Type} (l : List α) (p q : α → Bool)
    (h : ∀ u, p u = true → q u = true) :
    (l.filter p).length ≤ (l.filter q).length := by
  induction l with
  | nil => simp
  | cons a l ih =>
    cases hp : p a
    · cases hq : q a <;>
        simp only [List.filter_cons, hp, hq, if_true, if_false, Bool.false_eq_true,
          List.length_cons] <;> omega
    · have hq := h a hp
      simp only [List.filter_cons, hp, hq, if_true, List.length_cons]
      omega

theorem contains_append_right (visited : List String) (x u : String)
    (h : visited.contains u = true) : (visited ++ [x]).contains u = true := by
  have hm : u ∈ visited := by simpa using h
  have : u ∈ visited ++ [x] := List.mem_append_left _ hm
  simpa using this

theorem not_contains_append_imp (visited : List String) (x u : String)
    (hu : (!((visited ++ [x]).contains u)) = true) : (!(visited.contains u)) = true := by
  cases hcv : visited.contains u
  · rfl
  · rw [contains_append_right visited x u hcv] at hu
    exact absurd hu (by decide)

theorem length_filter_append_lt (l : List String) (visited : List String) (x : String)
    (hx : x ∈ l) (hnv : visited.contains x = false) :
    (l.filter (fun u => !((visited ++ [x]).contains u))).length <
      (l.filter (fun u => !(visited.contains u))).length := by
  induction l with
  | nil => cases hx
  | cons a l ih =>
    rcases List.mem_cons.mp hx with rfl | hxl
    · have hmx : x ∈ visited ++ [x] := by simp
      have hcx : ((visited ++ [x]).contains x) = true := by simpa using hmx
      simp only [List.filter_cons, hcx, hnv, Bool.not_true, Bool.not_false, if_true, if_false,
        Bool.false_eq_true, List.length_cons]
      have := length_filter_mono l (fun u => !((visited ++ [x]).contains u))
        (fun u => !(visited.contains u)) (not_contains_append_imp visited x)
      omega
    · have hstrict := ih hxl
      cases hna : (!((visited ++ [x]).contains a))
      · cases hob : (!(visited.contains a)) <;>
          simp only [List.filter_cons, hna, hob, if_true, if_false, Bool.false_eq_true,
            List.length_cons] <;> omega
      · have hoa := not_contains_append_imp visited x a hna
        simp only [List.filter_cons, hna, hoa, if_true, List.length_cons]
        omega

/-- Visiting one more node uri strictly shrinks the unvisited count. -/
theorem urisNot_append_lt (g : Graph) (visited : List String) (x : String)
    (hx : x ∈ g.map (fun n => n.uri)) (hnv : visited.contains x = false) :
    urisNot g (visited ++ [x]) < urisNot g visited :=
  length_filter_append_lt _ visited x hx hnv

/-- Growing `visited` never grows the unvisited count. -/
theorem urisNot_append_le (g : Graph) (visited : List String) (x : String) :
    urisNot g (visited ++ [x]) ≤ urisNot g visited :=
  length_filter_mono _ _ _ (not_contains_append_imp visited x)

/-- The unvisited count is at most the graph size. -/
theorem urisNot_le_length (g : Graph) (visited : List String) :
    urisNot g visited ≤ g.length := by
  calc urisNot g visited ≤ (g.map (fun n => n.uri)).length := List.length_filter_le _ _
    _ = g.length := List.length_map _ _

theorem lookupNode_uri_mem (g : Graph) (nodeId : String) (node : GraphNode)
    (h : lookupNode g nodeId = some node) : nodeId ∈ g.map (fun n => n.uri) := by
  have hmem := List.mem_of_find?_eq_some h
  have huri : node.uri = nodeId := by
    have := List.find?_some h
    simpa using this
  subst huri
  exact List.mem_map_of_mem _ hmem

/-! ## Rendering (`_getTreeHtml`'s `renderNode`, `forestStructureView.ts` lines 318-397) -/

/-- One emitted tree item: abstracts the HTML div produced per visited node
touri and depth; `cyc` is the cycle-terminator item of lines 331-338 (which
emits no children). -/
inductive RItem where
  | node (uri : String) (depth : Nat)
  | cyc (uri : String) (depth : Nat)
deriving DecidableEq, Repr

/-- Embedding of `renderNode` (`forestStructureView.ts` lines 323-390):
unknown node renders nothing; a node already on the current path renders a
single cycle terminator; otherwise the node itself followed by its children
(each child receiving a copy of the path extended with this node,
`new Set(visited)` after `visited.add(nodeId)`) when it has children and is
expanded. -/
def renderNode (g : Graph) (expanded : List String) (nodeId : String) (depth : Nat)
    (visited : List String) : List RItem :=
  match h : lookupNode g nodeId with
  | none => []
  | some node =>
    if hc : visited.contains nodeId then [.cyc nodeId depth]
    else
      let children :=
        if node.transcludes.length > 0 ∧ expanded.contains nodeId then
          node.transcludes.flatMap
            (fun c => renderNode g expanded c (depth + 1) (visited ++ [nodeId]))
        else []
      .node nodeId depth :: children
termination_by urisNot g visited
decreasing_by
  apply urisNot_append_lt
  · exact lookupNode_uri_mem g nodeId node h
  · simpa using hc

/-- Fuel-indexed version of `renderNode`, used to evaluate it: structural in
`fuel`, so concrete instances compute. -/
def renderNodeF (g : Graph) (expanded : List String) :
    Nat → String → Nat → List String → List RItem
  | 0, _, _, _ => []
  | fuel + 1, nodeId, depth, visited =>
    match lookupNode g nodeId with
    | none => []
    | some node =>
      if visited.contains nodeId then [.cyc nodeId depth]
      else
        let children :=
          if node.transcludes.length > 0 ∧ expanded.contains nodeId then
            node.transcludes.flatMap
              (fun c => renderNodeF g expanded fuel c (depth + 1) (visited ++ [nodeId]))
          else []
        .node nodeId depth :: children

theorem flatMap_eqOn {α β : Type} (f g : α → List β) :
    ∀ l : List α, (∀ c ∈ l, f c = g c) → l.flatMap f = l.flatMap g := by
  intro l
  induction l with
  | nil => intro _; rfl
  | cons a l ih =>
    intro h
    simp only [List.flatMap_cons]
    rw [h a (List.mem_cons_self ..), ih (fun c hc => h c (List.mem_cons_of_mem _ hc))]

/-- With fuel above the unvisited count, the fuel-indexed renderer agrees
with `renderNode`. -/
theorem renderNodeF_eq (g : Graph) (expanded : List String) :
    ∀ (fuel : Nat) (nodeId : String) (depth : Nat) (visited : List String),
      urisNot g visited < fuel →
      renderNodeF g expanded fuel nodeId depth visited =
        renderNode g expanded nodeId depth visited := by
  intro fuel
  induction fuel with
  | zero => intro _ _ _ h; omega
  | succ fuel ih =>
    intro nodeId depth visited hlt
    conv_rhs => rw [renderNode]
    simp only [renderNodeF]
    cases hl : lookupNode g nodeId with
    | none => simp only [hl]
    | some node =>
      simp only [hl]
      by_cases hv : visited.contains nodeId = true
      · simp only [hv, if_true, dif_pos]
      · simp only [hv, if_false, Bool.false_eq_true, dif_neg]
        have hdec : urisNot g (visited ++ [nodeId]) < urisNot g visited :=
          urisNot_append_lt g visited nodeId (lookupNode_uri_mem g nodeId node hl)
            (by simpa using hv)
        by_cases hch : node.transcludes.length > 0 ∧ expanded.contains nodeId = true
        · simp only [hch, if_pos, and_true, true_and]
          congr 1
          apply flatMap_eqOn
          intro c _
          exact ih c (depth + 1) (visited ++ [nodeId]) (by omega)
        · simp only [if_neg hch]
          simp

/-- The root loop of `_getTreeHtml` (`forestStructureView.ts` lines
392-396): each root of `currentRootIds` rendered at depth 0 with a fresh
path set. -/
def renderRoots (g : Graph) (expanded : List String) (roots : List String) : List RItem :=
  roots.flatMap (fun r => renderNode g expanded r 0 [])

/-- A graph node with the given uri and transclusion sets (remaining fields
are irrelevant to traversal). -/
def testNode (uri : String) (ts tsBy : List String) : GraphNode :=
  ⟨uri, none, [], "", [], "", uri, ts, tsBy⟩

/-- The 3-cycle forest graph of the claim: A transcludes B, B transcludes C,
C transcludes A. -/
def gCycle3 : Graph :=
  [testNode "a" ["b"] ["c"], testNode "b" ["c"] ["a"], testNode "c" ["a"] ["b"]]

/-- A diamond: R transcludes X and Y, each of which transcludes D. -/
def gDiamond : Graph :=
  [testNode "r" ["x", "y"] [], testNode "x" ["d"] ["r"], testNode "y" ["d"] ["r"],
   testNode "d" [] ["x", "y"]]

/-- Claim C4: rendering the 3-cycle A→B→C→A from root A with all three
nodes expanded terminates and emits A, B, C each exactly once, then marks
the second occurrence of A on that path as a cycle terminator with no
children below it; and a node (D) reachable along two different paths under
one root, or under two different roots, is rendered normally at both
positions rather than marked as a cycle. -/
theorem renderNode_cycle_render :
    renderRoots gCycle3 ["a", "b", "c"] ["a"] =
      [.node "a" 0, .node "b" 1, .node "c" 2, .cyc "a" 3] ∧
    renderRoots gDiamond ["r", "x", "y"] ["r"] =
      [.node "r" 0, .node "x" 1, .node "d" 2, .node "y" 1, .node "d" 2] ∧
    renderRoots gDiamond ["x", "y"] ["x", "y"] =
      [.node "x" 0, .node "d" 1, .node "y" 0, .node "d" 1] := by
  refine ⟨?_, ?_, ?_⟩
  · simp only [renderRoots, List.flatMap_cons, List.flatMap_nil, List.append_nil]
    rw [← renderNodeF_eq gCycle3 ["a", "b", "c"] 10 "a" 0 [] (by decide)]
    decide
  · simp only [renderRoots, List.flatMap_cons, List.flatMap_nil, List.append_nil]
    rw [← renderNodeF_eq gDiamond ["r", "x", "y"] 10 "r" 0 [] (by decide)]
    decide
  · simp only [renderRoots, List.flatMap_cons, List.flatMap_nil, List.append_nil]
    rw [← renderNodeF_eq gDiamond ["x", "y"] 10 "x" 0 [] (by decide),
      ← renderNodeF_eq gDiamond ["x", "y"] 10 "y" 0 [] (by decide)]
    decide

/-! ## Root resolution (`findRoot`, `forestStructureView.ts` lines 724-742) -/

/-- The `while (true)` loop of `findRoot`: a node already walked means the
up-chain cycles and the walk's origin `treeId` is returned; a missing node
or one with no incoming references is the root; otherwise step to the first
element of `transcludedBy` (`Array.from(currentNode.transcludedBy)[0]`). -/
def findRootGo (g : Graph) (origin : String) (visited : List String)
    (current : String) : String :=
  if hv : visited.contains current then origin
  else
    match h : lookupNode g current with
    | none => current
    | some node =>
      match node.transcludedBy with
      | [] => current
      | p :: _ => findRootGo g origin (visited ++ [current]) p
termination_by urisNot g visited
decreasing_by
  apply urisNot_append_lt
  · exact lookupNode_uri_mem g current node h
  · simpa using hv

/-- Embedding of `findRoot` (`forestStructureView.ts` lines 724-742): a
missing node or one with zero incoming references is its own root,
otherwise walk `transcludedBy` upward from `treeId`. -/
def findRoot (g : Graph) (treeId : String) : String :=
  match lookupNode g treeId with
  | none => treeId
  | some node =>
    match node.transcludedBy with
    | [] => treeId
    | _ :: _ => findRootGo g treeId [] treeId

/-- Fuel-indexed version of the `findRoot` loop; `none` means the fuel ran
out before the loop returned. -/
def findRootGoF (g : Graph) : Nat → String → List String → String → Option String
  | 0, _, _, _ => none
  | fuel + 1, origin, visited, current =>
    if visited.contains current then some origin
    else
      match lookupNode g current with
      | none => some current
      | some node =>
        match node.transcludedBy with
        | [] => some current
        | p :: _ => findRootGoF g fuel origin (visited ++ [current]) p

/-- Fuel-indexed `findRoot`. -/
def findRootFuel (g : Graph) (fuel : Nat) (treeId : String) : Option String :=
  match lookupNode g treeId with
  | none => some treeId
  | some node =>
    match node.transcludedBy with
    | [] => some treeId
    | _ :: _ => findRootGoF g fuel treeId [] treeId

/-- With fuel above the unvisited count the loop returns within the fuel
bound, and agrees with `findRootGo`. -/
theorem findRootGoF_eq (g : Graph) :
    ∀ (fuel : Nat) (origin : String) (visited : List String) (current : String),
      urisNot g visited < fuel →
      findRootGoF g fuel origin visited current =
        some (findRootGo g origin visited current) := by
  intro fuel
  induction fuel with
  | zero => intro _ _ _ h; omega
  | succ fuel ih =>
    intro origin visited current hlt
    conv_rhs => rw [findRootGo]
    simp only [findRootGoF]
    by_cases hv : visited.contains current = true
    · simp only [hv, if_true, dif_pos]
    · simp only [hv, if_false, Bool.false_eq_true, dif_neg]
      cases hl : lookupNode g current with
      | none => simp [hl]
      | some node =>
        simp only [hl]
        cases htb : node.transcludedBy with
        | nil => simp [htb]
        | cons p rest =>
          simp only [htb]
          have hdec : urisNot g (visited ++ [current]) < urisNot g visited :=
            urisNot_append_lt g visited current (lookupNode_uri_mem g current node hl)
              (by simpa using hv)
          exact ih origin (visited ++ [current]) p (by omega)

/-- `findRootFuel` with fuel one more than the graph size always returns. -/
theorem findRootFuel_complete (g : Graph) (treeId : String) :
    findRootFuel g (g.length + 1) treeId = some (findRoot g treeId) := by
  unfold findRootFuel findRoot
  cases hl : lookupNode g treeId with
  | none => rfl
  | some node =>
    cases htb : node.transcludedBy with
    | nil => simp [htb]
    | cons p rest =>
      simp [htb]
      exact findRootGoF_eq g (g.length + 1) treeId [] treeId
        (by have := urisNot_le_length g []; omega)

/-- Claim C7: `findRoot` terminates in a number of loop iterations bounded
by the graph size — fuel `g.length + 1` always suffices for the fuel-indexed
loop to return, agreeing with `findRoot`; on a node with zero incoming
`transcludedBy` references (or an unknown node) it returns the node itself;
and on a node whose upward ancestor chain revisits an already-walked node
it returns the walk's origin itself, as on the 3-cycle where every
up-chain cycles: `findRoot gCycle3 "a" = "a"`. -/
theorem findRoot_terminates_bounded :
    (∀ (g : Graph) (treeId : String),
      findRootFuel g (g.length + 1) treeId = some (findRoot g treeId)) ∧
    (∀ (g : Graph) (treeId : String) (node : GraphNode),
      lookupNode g treeId = some node → node.transcludedBy = [] →
      findRoot g treeId = treeId) ∧
    (∀ (g : Graph) (treeId : String),
      lookupNode g treeId = none → findRoot g treeId = treeId) ∧
    findRoot gCycle3 "a" = "a" := by
  refine ⟨findRootFuel_complete, ?_, ?_, ?_⟩
  · intro g treeId node hl htb
    unfold findRoot
    simp [hl, htb]
  · intro g treeId hl
    unfold findRoot
    simp [hl]
  · have h := findRootFuel_complete gCycle3 "a"
    have h2 : findRootFuel gCycle3 (gCycle3.length + 1) "a" = some "a" := by decide
    rw [h2] at h
    exact (Option.some.injEq _ _ ▸ h).symm

/-- Witness for `findRoot_terminates_bounded`: its hypotheses discharged on
a one-node graph with no incoming references. -/
theorem findRoot_terminates_bounded_witness :
    findRoot [testNode "solo" [] []] "solo" = "solo" :=
  findRoot_terminates_bounded.2.1 [testNode "solo" [] []] "solo" (testNode "solo" [] [])
    (by decide) (by decide)

/-! ## Revealing a node (`revealNode`, `forestStructureView.ts` lines 804-832)

`findPath` inside `revealNode` recurses through parents with NO visited
tracking, so on a cyclic `transcludes` relation the recursion never
returns.  The embedding is therefore fuel-indexed: `none` means the
underlying recursion did not return within the given depth. -/

/-- The parent-scanning loop of `findPath` (`forestStructureView.ts` lines
813-821): iterate `this.nodes.entries()` in insertion order; for a parent
whose `transcludes` contains the target, recurse (`recurse`, one nesting
level deeper); a non-empty parent path returns `[...parentPath, targetId]`,
an empty one falls through to the next candidate; an exhausted recursion
(`none`) aborts. -/
def searchParentChains (recurse : String → Option (List String)) :
    Graph → String → Option (List String)
  | [], _ => some []
  | parentNode :: rest, targetId =>
    if parentNode.transcludes.contains targetId then
      match recurse parentNode.uri with
      | none => none
      | some [] => searchParentChains recurse rest targetId
      | some parentPath => some (parentPath ++ [targetId])
    else searchParentChains recurse rest targetId

/-- Fuel-indexed embedding of `findPath` (`forestStructureView.ts` lines
807-824): a target in `currentRootIds` is its own path; otherwise search
all nodes for a parent whose `transcludes` contains the target.  `fuel`
bounds the recursion depth; `none` means the code's unbounded recursion
exceeds that depth. -/
def findPathFuel (g : Graph) (roots : List String) : Nat → String → Option (List String)
  | 0, _ => none
  | fuel + 1, targetId =>
    if roots.contains targetId then some [targetId]
    else searchParentChains (fun u => findPathFuel g roots fuel u) g targetId

/-- Fuel-indexed embedding of `revealNode` (`forestStructureView.ts` lines
804-832): compute the path and expand every node on it except the target
itself (the loop stops at `path.length - 1`). -/
def revealNodeFuel (g : Graph) (roots : List String) (fuel : Nat) (st : ViewState)
    (nodeId : String) : Option ViewState :=
  match findPathFuel g roots fuel nodeId with
  | none => none
  | some path => some { st with expandedNodes := path.dropLast.foldl setAdd st.expandedNodes }

/-- A graph whose `transcludes` relation contains a 2-cycle x⇄y with a node
t transcluded from inside the cycle, and no resolved roots: the failing
input for `revealNode`. -/
def gRevealCycle : Graph :=
  [testNode "x" ["y"] ["y"], testNode "y" ["x", "t"] ["x"], testNode "t" [] ["y"]]

theorem findPathFuel_gRevealCycle_none :
    ∀ fuel : Nat,
      findPathFuel gRevealCycle [] fuel "x" = none ∧
      findPathFuel gRevealCycle [] fuel "y" = none ∧
      findPathFuel gRevealCycle [] fuel "t" = none := by
  intro fuel
  induction fuel with
  | zero => exact ⟨rfl, rfl, rfl⟩
  | succ fuel ih =>
    obtain ⟨ihx, ihy, iht⟩ := ih
    simp only [gRevealCycle, testNode] at ihx ihy iht ⊢
    refine ⟨?_, ?_, ?_⟩ <;>
      simp [findPathFuel, searchParentChains, ihx, ihy, iht]

/-- Claim C8, divergence witnessed at the failing input: with the cyclic
graph `gRevealCycle` and no resolved roots, `findPath` (and hence
`revealNode`) does not return within ANY recursion depth — the source
recursion, which carries no visited set, never terminates on this input,
while the claim asserts termination for every graph including cyclic
ones. -/
theorem revealNode_findPath_diverges :
    ∀ fuel : Nat,
      findPathFuel gRevealCycle [] fuel "t" = none ∧
      revealNodeFuel gRevealCycle [] fuel ⟨[], [], false, none⟩ "t" = none := by
  intro fuel
  have h := (findPathFuel_gRevealCycle_none fuel).2.2
  refine ⟨h, ?_⟩
  simp [revealNodeFuel, h]

/-! ## Containment, auto-pinning and the toggle/open gestures
(`forestStructureView.ts` lines 66-227, 660-682) -/

mutual

/-- Embedding of `nodeContainsChild` (`forestStructureView.ts` lines
212-227): depth-first search over `transcludes` from `parentId` looking for
`targetId`.  The JS `visited` set is one mutable set shared by the whole
search (`new Set()` created once per root in `findRootForNode`), so it is
threaded through the result; the subtype records that the search only ever
grows it, which bounds the recursion. -/
def nodeContainsGo (g : Graph) (targetId : String) (visited : List String)
    (parentId : String) :
    Bool × { v : List String // urisNot g v ≤ urisNot g visited } :=
  if parentId = targetId then (true, ⟨visited, Nat.le_refl _⟩)
  else if hv : visited.contains parentId then (false, ⟨visited, Nat.le_refl _⟩)
  else
    match h : lookupNode g parentId with
    | none => (false, ⟨visited ++ [parentId], urisNot_append_le g visited parentId⟩)
    | some parent =>
      let r := nodeContainsFold g targetId (visited ++ [parentId]) parent.transcludes
      (r.1, ⟨r.2.1, Nat.le_trans r.2.2 (urisNot_append_le g visited parentId)⟩)
termination_by (urisNot g visited, 0)
decreasing_by
  have hlt : urisNot g (visited ++ [parentId]) < urisNot g visited :=
    urisNot_append_lt g visited parentId (lookupNode_uri_mem g parentId parent h)
      (by simpa using hv)
  exact Prod.Lex.left _ _ hlt

/-- The `for (const childId of parent.transcludes)` loop of
`nodeContainsChild`: try each child in order with the shared visited set,
returning as soon as one search succeeds. -/
def nodeContainsFold (g : Graph) (targetId : String) (visited : List String)
    (children : List String) :
    Bool × { v : List String // urisNot g v ≤ urisNot g visited } :=
  match children with
  | [] => (false, ⟨visited, Nat.le_refl _⟩)
  | c :: rest =>
    let r := nodeContainsGo g targetId visited c
    if r.1 then (true, ⟨r.2.1, r.2.2⟩)
    else
      let r2 := nodeContainsFold g targetId r.2.1 rest
      (r2.1, ⟨r2.2.1, Nat.le_trans r2.2.2 r.2.2⟩)
termination_by (urisNot g visited, children.length + 1)
decreasing_by
  · simp only [List.length_cons]
    exact Prod.Lex.right _ (by omega)
  · rcases eq_or_lt_of_le r.2.2 with heq | hlt
    · simp only [List.length_cons, heq]
      exact Prod.Lex.right _ (by omega)
    · exact Prod.Lex.left _ _ hlt

end

/-- `nodeContainsChild(rootId, nodeId, new Set())` as called from
`findRootForNode`. -/
def nodeContainsChild (g : Graph) (parentId targetId : String) : Bool :=
  (nodeContainsGo g targetId [] parentId).1

/-- Embedding of `findRootForNode` (`forestStructureView.ts` lines
196-210): a node that is itself a current root is its own root; otherwise
the first current root whose subtree contains it; `none` if no root
contains it. -/
def findRootForNode (g : Graph) (currentRoots : List String) (nodeId : String) :
    Option String :=
  if currentRoots.contains nodeId then some nodeId
  else currentRoots.find? (fun rootId => nodeContainsChild g rootId nodeId)

/-- Embedding of `autoPinOnInteraction` (`forestStructureView.ts` lines
186-194): find the root of the interacted node and, if it is not already
pinned, push it and expand it — with NO check against `MAX_PINNED_ROOTS`. -/
def autoPinOnInteraction (g : Graph) (currentRoots : List String) (st : ViewState)
    (nodeId : String) : ViewState :=
  match findRootForNode g currentRoots nodeId with
  | none => st
  | some root =>
    if st.pinnedRootIds.contains root then st
    else
      { st with pinnedRootIds := st.pinnedRootIds ++ [root],
                expandedNodes := setAdd st.expandedNodes root }

/-- Embedding of the `toggle` message handler (`forestStructureView.ts`
lines 68-84): flip membership of the node in `expandedNodes`, then
auto-pin. -/
def toggleMessage (g : Graph) (currentRoots : List String) (st : ViewState)
    (nodeId : String) : ViewState :=
  let st1 :=
    if st.expandedNodes.contains nodeId then
      { st with expandedNodes := setDelete st.expandedNodes nodeId }
    else
      { st with expandedNodes := setAdd st.expandedNodes nodeId }
  autoPinOnInteraction g currentRoots st1 nodeId

/-- Embedding of the `openFile` message handler (`forestStructureView.ts`
lines 85-106): expand the node if it has children, mark it selected, then
auto-pin. -/
def openFileMessage (g : Graph) (currentRoots : List String) (st : ViewState)
    (nodeId : String) : ViewState :=
  let st1 :=
    match lookupNode g nodeId with
    | some node =>
      if node.transcludes.length > 0 then
        { st with expandedNodes := setAdd st.expandedNodes nodeId }
      else st
    | none => st
  let st2 := { st1 with selectedNodeId := some nodeId }
  autoPinOnInteraction g currentRoots st2 nodeId

/-- Embedding of `pinToCurrentFile` (`forestStructureView.ts` lines
660-682): resolve the current tree's root (itself when it has no incoming
references) and pin + expand it when not already pinned — also with NO
check against `MAX_PINNED_ROOTS`. -/
def pinToCurrentFile (g : Graph) (st : ViewState) (treeId : String) : ViewState :=
  match lookupNode g treeId with
  | none => st
  | some node =>
    let rootId := if node.transcludedBy.length > 0 then findRoot g treeId else treeId
    if rootId = "" then st
    else if st.pinnedRootIds.contains rootId then st
    else
      { st with pinnedRootIds := st.pinnedRootIds ++ [rootId],
                expandedNodes := setAdd st.expandedNodes rootId }

/-- Eleven root trees with no transclusions. -/
def gElevenRoots : Graph :=
  [testNode "r0" [] [], testNode "r1" [] [], testNode "r2" [] [], testNode "r3" [] [],
   testNode "r4" [] [], testNode "r5" [] [], testNode "r6" [] [], testNode "r7" [] [],
   testNode "r8" [] [], testNode "r9" [] [], testNode "r10" [] []]

/-- All eleven as resolved current roots (ten pinned plus the active
file's root, as `buildGraph` computes them). -/
def elevenRootIds : List String :=
  ["r0", "r1", "r2", "r3", "r4", "r5", "r6", "r7", "r8", "r9", "r10"]

/-- A view state already holding the maximum of ten pinned roots. -/
def tenPinnedState : ViewState :=
  ⟨[], ["r0", "r1", "r2", "r3", "r4", "r5", "r6", "r7", "r8", "r9"], false, none⟩

/-- Claim C5, failing input evaluated: with ten pinned roots (the
configured maximum), a toggle interaction on a node of an unpinned root
auto-pins an eleventh root — `autoPinOnInteraction` performs no
`MAX_PINNED_ROOTS` check at all, so the pin is performed rather than
silently skipped and `pinnedRootIds` exceeds the maximum of 10 (the
expansion also occurs). -/
theorem autoPin_limit_code_bug :
    MAX_PINNED_ROOTS = 10 ∧
    (toggleMessage gElevenRoots elevenRootIds tenPinnedState "r10").pinnedRootIds =
      ["r0", "r1", "r2", "r3", "r4", "r5", "r6", "r7", "r8", "r9", "r10"] ∧
    (toggleMessage gElevenRoots elevenRootIds tenPinnedState "r10").pinnedRootIds.length =
      11 ∧
    (toggleMessage gElevenRoots elevenRootIds tenPinnedState "r10").expandedNodes.contains
      "r10" = true := by
  refine ⟨rfl, ?_, ?_, ?_⟩ <;> decide

/-! ## The Query Cache's concurrency (`getForest` / `forestUpdatedOnDisk`,
`server.ts` lines 100-134 and 216-223)

JavaScript is single-threaded with run-to-completion between `await`s, so
the cache is embedded as a transition system: each constructor of `Step` is
one atomic segment of `getForest` or `forestUpdatedOnDisk`, cut at its
`await`s.  The scheduler (which caller segment runs next, when an in-flight
fetch settles, and in which order awaiters resume) is arbitrary — a
superset of the real event-loop orders.  Fetches are numbered in creation
order; `fetchCount` counts Data Source Adapter invocations (`queryForest`
calls); `resolved` records each settled fetch's value. -/

/-- One caller of the cache, by program counter:
`getStart` — a `getForest({forceReload, fastReturnStale})` call that has not
run yet; `invStart` — a `forestUpdatedOnDisk` call that has not run yet;
`awaitJoin fid` — returned the in-flight promise at line 105;
`awaitInit fid` — started fetch `fid` at line 112 and awaits it at line 115;
`invAwait fid` — an invalidator awaiting the in-flight fetch at line 220;
`done r` — resolved with forest `r`. -/
inductive ProcState where
  | getStart (forceReload fastReturnStale : Bool)
  | invStart
  | awaitJoin (fid : Nat)
  | awaitInit (fid : Nat)
  | invAwait (fid : Nat)
  | done (result : Forest)
deriving DecidableEq, Repr

/-- The cache state: the callers, `queryInProgressPromise` (as the id of
the in-flight fetch), `mostRecentQueryResult`, the number of adapter
invocations so far, and the settled fetches with their values. -/
structure Sys where
  procs : List ProcState
  qip : Option Nat
  mrq : Option Forest
  fetchCount : Nat
  resolved : List (Nat × Forest)
deriving DecidableEq, Repr

/-- Value of a settled fetch. -/
def resLookup : List (Nat × Forest) → Nat → Option Forest
  | [], _ => none
  | (k, v) :: rest, fid => if fid = k then some v else resLookup rest fid

/-- One atomic segment.  `getCached`/`getJoin`/`getNew` are the three exits
of `getForest`'s synchronous prologue (lines 102, 105, 112-115);
`invAwaits`/`invNew` the two exits of `forestUpdatedOnDisk`'s prologue
(lines 220-222); `invResume` the invalidator's resumption, which calls
`getForest({forceReload: true})` and therefore unconditionally starts a new
fetch; `resumeInit` the initiator's resumption (lines 115-133: store
`mostRecentQueryResult`, run callbacks — which at that point can only join
the already-settled promise — clear `queryInProgressPromise`, return);
`resumeJoin` a joiner resolving with the fetch's value; `resolve` an
in-flight fetch settling. -/
inductive Step : Sys → Sys → Prop where
  | getCached (s : Sys) (i : Nat) (forceReload fastReturnStale : Bool) (f : Forest) :
      s.procs.get? i = some (.getStart forceReload fastReturnStale) →
      forceReload = false →
      (s.qip = none ∨ fastReturnStale = true) →
      s.mrq = some f →
      Step s { s with procs := s.procs.set i (.done f) }
  | getJoin (s : Sys) (i : Nat) (forceReload fastReturnStale : Bool) (fid : Nat) :
      s.procs.get? i = some (.getStart forceReload fastReturnStale) →
      forceReload = false →
      s.qip = some fid →
      (fastReturnStale = false ∨ s.mrq = none) →
      Step s { s with procs := s.procs.set i (.awaitJoin fid) }
  | getNew (s : Sys) (i : Nat) (forceReload fastReturnStale : Bool) :
      s.procs.get? i = some (.getStart forceReload fastReturnStale) →
      (forceReload = true ∨ (s.qip = none ∧ s.mrq = none)) →
      Step s { s with procs := s.procs.set i (.awaitInit s.fetchCount),
                      qip := some s.fetchCount, fetchCount := s.fetchCount + 1 }
  | invAwaits (s : Sys) (i : Nat) (fid : Nat) :
      s.procs.get? i = some .invStart →
      s.qip = some fid →
      Step s { s with procs := s.procs.set i (.invAwait fid) }
  | invNew (s : Sys) (i : Nat) :
      s.procs.get? i = some .invStart →
      s.qip = none →
      Step s { s with procs := s.procs.set i (.awaitInit s.fetchCount),
                      qip := some s.fetchCount, fetchCount := s.fetchCount + 1 }
  | invResume (s : Sys) (i : Nat) (fid : Nat) (v : Forest) :
      s.procs.get? i = some (.invAwait fid) →
      resLookup s.resolved fid = some v →
      Step s { s with procs := s.procs.set i (.awaitInit s.fetchCount),
                      qip := some s.fetchCount, fetchCount := s.fetchCount + 1 }
  | resumeInit (s : Sys) (i : Nat) (fid : Nat) (v : Forest) :
      s.procs.get? i = some (.awaitInit fid) →
      resLookup s.resolved fid = some v →
      Step s { s with procs := s.procs.set i (.done v), mrq := some v, qip := none }
  | resumeJoin (s : Sys) (i : Nat) (fid : Nat) (v : Forest) :
      s.procs.get? i = some (.awaitJoin fid) →
      resLookup s.resolved fid = some v →
      Step s { s with procs := s.procs.set i (.done v) }
  | resolve (s : Sys) (fid : Nat) (v : Forest) :
      fid < s.fetchCount →
      resLookup s.resolved fid = none →
      Step s { s with resolved := (fid, v) :: s.resolved }

/-- The claim C1 scenario: `n` concurrent `getForest` calls with
`forceReload = false` and `fastReturnStale = false`, no fetch in flight, no
cached result. -/
def initC1 (n : Nat) : Sys :=
  ⟨List.replicate n (.getStart false false), none, none, 0, []⟩

theorem resLookup_prepend_stable (res : List (Nat × Forest)) (fid : Nat) (v : Forest)
    (k : Nat) (w : Forest) (hk : resLookup res k = some w)
    (hfid : resLookup res fid = none) :
    resLookup ((fid, v) :: res) k = some w := by
  have hne : k ≠ fid := by
    intro h
    rw [h, hfid] at hk
    exact absurd hk (by simp)
  simpa [resLookup, hne] using hk

/-- Per-caller invariant of the C1 scenario, as a function of the adapter
invocation count and the settled fetches. -/
def ProcOk (fc : Nat) (res : List (Nat × Forest)) : ProcState → Prop
  | .getStart forceReload fastReturnStale => forceReload = false ∧ fastReturnStale = false
  | .invStart => False
  | .awaitJoin fid => fid = 0 ∧ fc = 1
  | .awaitInit fid => fid = 0 ∧ fc = 1
  | .invAwait _ => False
  | .done r => fc = 1 ∧ resLookup res 0 = some r

/-- System invariant of the C1 scenario: at most one fetch ever starts, a
published in-flight fetch is fetch 0, an empty cache with no in-flight
fetch means no fetch has started, a cached result is fetch 0's settled
value, and every caller is in a C1-reachable state. -/
def SysInv (n : Nat) (s : Sys) : Prop :=
  s.procs.length = n ∧
  s.fetchCount ≤ 1 ∧
  (∀ fid, s.qip = some fid → fid = 0 ∧ s.fetchCount = 1) ∧
  (s.qip = none → s.mrq = none → s.fetchCount = 0) ∧
  (∀ f, s.mrq = some f → s.fetchCount = 1 ∧ resLookup s.resolved 0 = some f) ∧
  (∀ p ∈ s.procs, ProcOk s.fetchCount s.resolved p)

theorem sysInv_init (n : Nat) : SysInv n (initC1 n) := by
  refine ⟨List.length_replicate n _, Nat.zero_le 1, ?_, ?_, ?_, ?_⟩
  · intro fid h; exact absurd h (by simp [initC1])
  · intro _ _; rfl
  · intro f h; exact absurd h (by simp [initC1])
  · intro p hp
    have := List.eq_of_mem_replicate hp
    subst this
    exact ⟨rfl, rfl⟩

theorem sysInv_step (n : Nat) (s s' : Sys) (hinv : SysInv n s) (hstep : Step s s') :
    SysInv n s' := by
  obtain ⟨hlen, hfc, hqip, hzero, hmrq, hprocs⟩ := hinv
  cases hstep with
  | getCached i forceReload fastReturnStale f hget hforce hnoq hm =>
    refine ⟨by simpa using hlen, hfc, hqip, hzero, hmrq, ?_⟩
    intro p hp
    rcases List.mem_or_eq_of_mem_set hp with hp' | rfl
    · exact hprocs p hp'
    · exact ⟨(hmrq f hm).1, (hmrq f hm).2⟩
  | getJoin i forceReload fastReturnStale fid hget hforce hq hstale =>
    refine ⟨by simpa using hlen, hfc, hqip, hzero, hmrq, ?_⟩
    intro p hp
    rcases List.mem_or_eq_of_mem_set hp with hp' | rfl
    · exact hprocs p hp'
    · exact hqip fid hq
  | getNew i forceReload fastReturnStale hget hguard =>
    obtain ⟨hf, hfs⟩ := hprocs _ (List.get?_mem hget)
    have hcase : s.qip = none ∧ s.mrq = none := by
      rcases hguard with h | h
      · rw [hf] at h; exact absurd h (by decide)
      · exact h
    have hfc0 : s.fetchCount = 0 := hzero hcase.1 hcase.2
    refine ⟨by simpa using hlen, by show s.fetchCount + 1 ≤ 1; omega, ?_, ?_, ?_, ?_⟩
    · intro fid hq
      have : s.fetchCount = fid := Option.some.inj hq
      exact ⟨by omega, by show s.fetchCount + 1 = 1; omega⟩
    · intro hq _
      exact absurd hq (by simp)
    · intro f hm
      rw [hcase.2] at hm
      exact absurd hm (by simp)
    · intro p hp
      rcases List.mem_or_eq_of_mem_set hp with hp' | rfl
      · have hpo := hprocs p hp'
        cases p with
        | getStart a b => exact hpo
        | invStart => exact hpo.elim
        | awaitJoin fid => exact absurd hpo.2 (by omega)
        | awaitInit fid => exact absurd hpo.2 (by omega)
        | invAwait fid => exact hpo.elim
        | done r => exact absurd hpo.1 (by omega)
      · exact ⟨by omega, by show s.fetchCount + 1 = 1; omega⟩
  | invAwaits i fid hget hq =>
    exact ((hprocs _ (List.get?_mem hget)) : False).elim
  | invNew i hget hq =>
    exact ((hprocs _ (List.get?_mem hget)) : False).elim
  | invResume i fid v hget hres =>
    exact ((hprocs _ (List.get?_mem hget)) : False).elim
  | resumeInit i fid v hget hres =>
    obtain ⟨hfid, hfc1⟩ := hprocs _ (List.get?_mem hget)
    subst hfid
    refine ⟨by simpa using hlen, hfc, ?_, ?_, ?_, ?_⟩
    · intro fid' hq
      exact absurd hq (by simp)
    · intro _ hm
      exact absurd hm (by simp)
    · intro f hm
      have hv : v = f := Option.some.inj hm
      subst hv
      exact ⟨hfc1, hres⟩
    · intro p hp
      rcases List.mem_or_eq_of_mem_set hp with hp' | rfl
      · exact hprocs p hp'
      · exact ⟨hfc1, hres⟩
  | resumeJoin i fid v hget hres =>
    obtain ⟨hfid, hfc1⟩ := hprocs _ (List.get?_mem hget)
    subst hfid
    refine ⟨by simpa using hlen, hfc, hqip, hzero, hmrq, ?_⟩
    intro p hp
    rcases List.mem_or_eq_of_mem_set hp with hp' | rfl
    · exact hprocs p hp'
    · exact ⟨hfc1, hres⟩
  | resolve fid v hlt hnone =>
    refine ⟨hlen, hfc, hqip, hzero, ?_, ?_⟩
    · intro f hm
      obtain ⟨h1, h2⟩ := hmrq f hm
      exact ⟨h1, resLookup_prepend_stable _ fid v 0 f h2 hnone⟩
    · intro p hp
      have hpo := hprocs p hp
      cases p with
      | getStart a b => exact hpo
      | invStart => exact hpo.elim
      | awaitJoin fid' => exact hpo
      | awaitInit fid' => exact hpo
      | invAwait fid' => exact hpo.elim
      | done r => exact ⟨hpo.1, resLookup_prepend_stable _ fid v 0 r hpo.2 hnone⟩

theorem sysInv_reach (n : Nat) (s : Sys)
    (h : Relation.ReflTransGen Step (initC1 n) s) : SysInv n s := by
  induction h with
  | refl => exact sysInv_init n
  | tail hr hstep ih => exact sysInv_step n _ _ ih hstep

/-- Claim C1: from the state with `n` concurrent plain `getForest` calls
(`forceReload = false`, `fastReturnStale = false`), no fetch in flight and
no cached result, every interleaving keeps the number of Data Source
Adapter invocations at most 1 (so at most one fetch is ever in flight
system-wide), and when all callers have resolved, exactly one `queryForest`
invocation has occurred and all callers resolved to the same Forest
value. -/
theorem getForest_single_flight :
    ∀ (n : Nat) (s : Sys), Relation.ReflTransGen Step (initC1 n) s →
      s.fetchCount ≤ 1 ∧
      ((∀ p ∈ s.procs, ∃ r, p = ProcState.done r) → 0 < n →
        s.fetchCount = 1 ∧ ∃ v, ∀ p ∈ s.procs, p = ProcState.done v) := by
  intro n s hreach
  obtain ⟨hlen, hfc, hqip, hzero, hmrq, hprocs⟩ := sysInv_reach n s hreach
  refine ⟨hfc, ?_⟩
  intro hall hn
  obtain ⟨p0, hp0⟩ := List.exists_mem_of_length_pos (by omega : 0 < s.procs.length)
  obtain ⟨r0, hr0⟩ := hall p0 hp0
  subst hr0
  have h0 := hprocs _ hp0
  refine ⟨h0.1, r0, ?_⟩
  intro p hp
  obtain ⟨r, hr⟩ := hall p hp
  subst hr
  have h1 := hprocs _ hp
  have : some r = some r0 := by rw [← h1.2, ← h0.2]
  rw [Option.some.inj this]

/-- Final state of a one-caller run of the C1 scenario. -/
def sC1Final : Sys := ⟨[.done []], none, some [], 1, [(0, [])]⟩

/-- Witness for `getForest_single_flight`: a concrete complete run with one
caller — start the fetch, settle it, resume — reaches `sC1Final`, where the
theorem yields exactly one adapter invocation and a common result. -/
theorem getForest_single_flight_witness :
    sC1Final.fetchCount = 1 ∧ ∃ v, ∀ p ∈ sC1Final.procs, p = ProcState.done v := by
  have htrace : Relation.ReflTransGen Step (initC1 1) sC1Final := by
    refine Relation.ReflTransGen.head
      (Step.getNew (initC1 1) 0 false false rfl (Or.inr ⟨rfl, rfl⟩)) ?_
    refine Relation.ReflTransGen.head (Step.resolve _ 0 [] (by decide) rfl) ?_
    refine Relation.ReflTransGen.head (Step.resumeInit _ 0 0 [] rfl rfl) ?_
    exact Relation.ReflTransGen.refl
  exact (getForest_single_flight 1 sC1Final htrace).2
    (by
      intro p hp
      exact ⟨[], List.mem_singleton.mp hp⟩)
    (by decide)

/-- The claim C2 scenario: fetch 0 is in flight (its initiator awaits it)
and two `forestUpdatedOnDisk` invalidations arrive while it is in
flight. -/
def initC2 : Sys := ⟨[.awaitInit 0, .invStart, .invStart], some 0, none, 1, []⟩

/-- The settled state the C2 burst reaches: three adapter invocations. -/
def burstFinal : Sys :=
  ⟨[.done [], .done [], .done []], none, some [], 3, [(2, []), (1, []), (0, [])]⟩

/-- Claim C2, failing run evaluated: each of the two invalidators awaits
the in-flight fetch 0, but on resumption each calls
`getForest({forceReload: true})`, which skips both early returns and starts
its OWN fresh fetch — so a burst of N = 2 invalidations during one fetch
settles with 3 = N + 1 adapter invocations, not at most 2.  The run below
is a legal interleaving of the embedded `server.ts` segments from the burst
state to a fully settled state with `fetchCount = 3`. -/
theorem forestUpdatedOnDisk_burst_code_bug :
    Relation.ReflTransGen Step initC2 burstFinal ∧
    (∀ p ∈ burstFinal.procs, p = ProcState.done []) ∧
    burstFinal.fetchCount = 3 ∧ 2 < burstFinal.fetchCount := by
  refine ⟨?_, ?_, rfl, by decide⟩
  · refine Relation.ReflTransGen.head (Step.invAwaits initC2 1 0 rfl rfl) ?_
    refine Relation.ReflTransGen.head (Step.invAwaits _ 2 0 rfl rfl) ?_
    refine Relation.ReflTransGen.head (Step.resolve _ 0 [] (by decide) rfl) ?_
    refine Relation.ReflTransGen.head (Step.resumeInit _ 0 0 [] rfl rfl) ?_
    refine Relation.ReflTransGen.head (Step.invResume _ 1 0 [] rfl rfl) ?_
    refine Relation.ReflTransGen.head (Step.invResume _ 2 0 [] rfl rfl) ?_
    refine Relation.ReflTransGen.head (Step.resolve _ 1 [] (by decide) rfl) ?_
    refine Relation.ReflTransGen.head (Step.resolve _ 2 [] (by decide) rfl) ?_
    refine Relation.ReflTransGen.head (Step.resumeInit _ 1 1 [] rfl rfl) ?_
    refine Relation.ReflTransGen.head (Step.resumeInit _ 2 2 [] rfl rfl) ?_
    exact Relation.ReflTransGen.refl
  · intro p hp
    simp only [burstFinal, List.mem_cons, List.not_mem_nil, or_false] at hp
    rcases hp with h | h | h <;> exact h
